import Mathlib

/-!
Verification of the dependency-graph resolution and materialization engine
of a polyglot-monorepo CLI (src/src/index.ts).

The embedding below translates the data model and the pure decision logic of
the source file into Lean:

- the manifest-level data model (PackageDependency, Deps, Repo, ReposWithDeps);
- check_circular_deps, the three-color DFS cycle detector, embedded with an
  explicit fuel argument so that it is a total structural recursion (the fuel
  chosen at the top level is proved sufficient by the correctness lemmas);
- process_dep, the materializer, over an abstract file-system tree, including
  the cpSync substring filter for node_modules and .git;
- process_all_deps, the orchestrator, as the list of (source, target)
  materialization edges it attempts, in the exact order of the source loops,
  together with an abort-on-first-failure execution model (process_dep calls
  are not wrapped in try/catch in the source);
- create_all_grpc_stubs, the codegen driver, as a job list plus a run
  function in which a generator failure is caught (the source wraps execSync
  in try/catch) but a missing index.proto throws out of the whole walk
  (the source does not catch the throw of create_grpc_client_stub);
- the link / clone / grpc command handlers, which run the cycle check first
  and stop when it reports a cycle.
-/

/-! ## Data model (source lines 8-13) -/

structure PackageDependency where
  name : String
  grpc : Bool
deriving DecidableEq, Repr

structure Deps where
  apps : List String
  packages : List PackageDependency
deriving DecidableEq, Repr

structure Repo where
  name : String
  deps : Deps
deriving DecidableEq, Repr

structure ReposWithDeps where
  apps : List Repo
  packages : List Repo
deriving DecidableEq, Repr

/-- The flattened node list, apps then packages (source line 87:
all_repos = repos_with_deps.apps.concat(repos_with_deps.packages)). -/
def allRepos (c : ReposWithDeps) : List Repo := c.apps ++ c.packages

/-- The dependency names declared by one repo, apps first then packages
(source line 98: [...repo.deps.apps, ...repo.deps.packages.map(d => d.name)]). -/
def depNames (r : Repo) : List String := r.deps.apps ++ r.deps.packages.map (fun d => d.name)

/-- Name resolution against a node list: first repo whose name matches
(source line 100: all_repos.find(r => r.name === dep_name)). -/
def findRepo (rs : List Repo) (n : String) : Option Repo :=
  rs.find? (fun r => r.name == n)

def namesOf (rs : List Repo) : List String := rs.map (fun r => r.name)

/-! ## Cycle detector (source lines 86-116) -/

/-- DFS state: the visited set and the recursion stack.  The source uses
Set of string for both; here both are lists of names, the visited list
recording first-visit order (most recent first). -/
structure DfsSt where
  visited : List String
  stack : List String
deriving DecidableEq, Repr

/-- The loop over a repo's dependency names inside visit (source lines
98-102): unresolvable names are skipped, a child returning true short
circuits the loop. -/
def goF (vf : Repo → DfsSt → Bool × DfsSt) (rs : List Repo) : List String → DfsSt → Bool × DfsSt
  | [], st => (false, st)
  | d :: ds, st =>
    match findRepo rs d with
    | none => goF vf rs ds st
    | some dep =>
      let r := vf dep st
      if r.1 then (true, r.2) else goF vf rs ds r.2

/-- The recursive visit function (source lines 91-106), with a fuel
argument making the recursion structural.  A call with zero fuel returns
false without inspecting the state; the top-level fuel (length of the node
list plus two) is proved sufficient, so this branch is never taken on the
calls the program performs. -/
def visit (rs : List Repo) (fuel : Nat) : Repo → DfsSt → Bool × DfsSt :=
  Nat.rec
    (fun _ st => (false, st))
    (fun _ ih repo st =>
      if repo.name ∈ st.stack then (true, st)
      else if repo.name ∈ st.visited then (false, st)
      else
        let r := goF ih rs (depNames repo)
          ⟨repo.name :: st.visited, repo.name :: st.stack⟩
        if r.1 then (true, r.2)
        else (false, ⟨r.2.visited, r.2.stack.erase repo.name⟩))
    fuel

/-- The outer loop (source lines 108-113): visit every node; on the first
visit call that returns true, report that node's name (the console.log on
line 110 prints repo.name of the outer loop variable). -/
def checkLoop (rs : List Repo) (fuel : Nat) : List Repo → DfsSt → Option String × DfsSt
  | [], st => (none, st)
  | repo :: rest, st =>
    let r := visit rs fuel repo st
    if r.1 then (some repo.name, r.2) else checkLoop rs fuel rest r.2

def checkList (rs : List Repo) : Option String × DfsSt :=
  checkLoop rs (rs.length + 2) rs ⟨[], []⟩

/-- check_circular_deps: true when a cycle was detected. -/
def check_circular_deps (c : ReposWithDeps) : Bool :=
  (checkList (allRepos c)).1.isSome

/-- The node name the detector reports when it returns true (source line
110), none when no cycle is found. -/
def check_report (c : ReposWithDeps) : Option String :=
  (checkList (allRepos c)).1

/-- The visited set after the detector finishes, in first-visit order. -/
def check_visited (c : ReposWithDeps) : List String :=
  (checkList (allRepos c)).2.visited

/-! ## Resolved dependency graph semantics -/

/-- The resolved dependency edge relation on names: a has an edge to b when
the repo that the name a resolves to declares a dependency named b which
itself resolves.  This is exactly the edge the detector follows: dangling
names are ignored, and resolution takes the first match in the
apps-then-packages node list. -/
def Edge (rs : List Repo) (a b : String) : Prop :=
  ∃ r, findRepo rs a = some r ∧ b ∈ depNames r ∧ (findRepo rs b).isSome

/-- A directed cycle of length at least one through some node. -/
def HasCycle (rs : List Repo) : Prop :=
  ∃ n, Relation.TransGen (Edge rs) n n

/-- The name n can reach a node that lies on a directed cycle. -/
def ReachesCycle (rs : List Repo) (n : String) : Prop :=
  ∃ m, Relation.ReflTransGen (Edge rs) n m ∧ Relation.TransGen (Edge rs) m m

/-! ## Materializer (process_dep, source lines 119-141) -/

/- An abstract file-system tree.  Directory entries are a separate mutual
inductive (rather than a nested list) so that recursion over trees is
structural. -/
mutual
inductive FSTree where
  | file (content : String)
  | symlink (target : String)
  | dir (entries : FSEntries)
inductive FSEntries where
  | nil
  | cons (name : String) (t : FSTree) (rest : FSEntries)
end

/-- Substring test on character lists: does l start with pat. -/
def startsWithL : List Char → List Char → Bool
  | [], _ => true
  | _ :: _, [] => false
  | p :: ps, c :: cs => p == c && startsWithL ps cs

/-- Substring test on character lists: does pat occur anywhere in l.
This is the semantics of JavaScript String.prototype.includes. -/
def containsL (pat : List Char) : List Char → Bool
  | [] => pat.isEmpty
  | c :: cs' => startsWithL pat (c :: cs') || containsL pat cs'

/-- String includes, as in the cpSync filter src.includes(...) on source
line 137. -/
def includes (s pat : String) : Bool := containsL pat.data s.data

/-- The cpSync filter (source line 137): keep a source path only when its
full path string contains neither node_modules nor .git as a substring. -/
def filterOk (p : String) : Bool :=
  !(includes p "node_modules") && !(includes p ".git")

/- Recursive copy with the exclusion filter, as cpSync with the filter
function on source lines 135-138: the filter receives the absolute source
path of every node, the root included; a rejected node is skipped with its
whole subtree.  Rejecting the root means nothing is created at the target,
hence the Option result. -/
mutual
def copyTree (abs : String) : FSTree → Option FSTree
  | .file c => if filterOk abs then some (.file c) else none
  | .symlink t => if filterOk abs then some (.symlink t) else none
  | .dir es => if filterOk abs then some (.dir (copyEntries abs es)) else none
def copyEntries (abs : String) : FSEntries → FSEntries
  | .nil => .nil
  | .cons n t rest =>
    match copyTree (abs ++ "/" ++ n) t with
    | none => copyEntries abs rest
    | some t' => .cons n t' (copyEntries abs rest)
end

/-- Removal of an existing target (source lines 123-129): a symbolic link
is unlinked directly, anything else is removed recursively and forcibly;
either way the target is gone afterwards.  An absent target stays absent. -/
def remove_target : Option FSTree → Option FSTree
  | none => none
  | some (.symlink _) => none
  | some (.file _) => none
  | some (.dir _) => none

/-- process_dep (source lines 119-141) on the abstract state of one target
path.  srcAbs is the absolute resolved source path (path.resolve(src_path));
srcTree is the source tree; oldTarget is whatever currently sits at the
target path.  The existing target is removed first, then link mode creates
a directory symlink pointing at srcAbs, and copy mode runs the filtered
recursive copy. -/
def process_dep (srcAbs : String) (srcTree : FSTree) (oldTarget : Option FSTree)
    (is_link : Bool) : Option FSTree :=
  let _cleared := remove_target oldTarget
  if is_link then some (.symlink srcAbs) else copyTree srcAbs srcTree

/-! ## Orchestrator (process_all_deps, source lines 144-173) -/

/-- path.join on segments that contain no separators themselves. -/
def pjoin (l : List String) : String := String.intercalate "/" l

structure MatEdge where
  src : String
  target : String
deriving DecidableEq, Repr

def flatAll : List (List α) → List α
  | [] => []
  | l :: ls => l ++ flatAll ls

/-- The materialization edges one repo produces, in source order (lines
153-168).  Note that both the source path of app dependencies and the
repo-kind path segment of every target use the consuming repo's kind
string (the loop variable named type in the source), not the kind of the
dependency. -/
def repo_dep_edges (type : String) (r : Repo) : List MatEdge :=
  flatAll (r.deps.packages.map (fun pkg =>
    let contentsE : MatEdge :=
      ⟨pjoin ["packages", pkg.name], pjoin [type, r.name, "repo", type, pkg.name, "contents"]⟩
    if pkg.grpc then
      [contentsE, ⟨pjoin ["packages", pkg.name, "protos"],
                   pjoin [type, r.name, "repo", type, pkg.name, "protos"]⟩]
    else [contentsE]))
  ++ r.deps.apps.map (fun app =>
      ⟨pjoin [type, app, "protos"], pjoin [type, r.name, "repo", type, app, "protos"]⟩)

/-- All materialization edges, packages before apps (source line 149). -/
def dep_edges (c : ReposWithDeps) : List MatEdge :=
  flatAll (c.packages.map (repo_dep_edges "packages"))
  ++ flatAll (c.apps.map (repo_dep_edges "apps"))

/-- Execution of the orchestrator loop under a per-edge failure oracle.
process_dep is not wrapped in try/catch inside process_all_deps, so a
throwing edge aborts the loop: the result is the list of edges actually
attempted (the failing edge included, it was attempted and threw) and
whether the loop aborted. -/
def attempted (fails : MatEdge → Bool) : List MatEdge → List MatEdge × Bool
  | [] => ([], false)
  | e :: es =>
    if fails e then ([e], true)
    else
      let r := attempted fails es
      (e :: r.1, r.2)

/-! ## Interface codegen driver (source lines 176-249) -/

/-- The materialized location the client-stub generator reads its protos
from (source line 177): repo_path/repo/dep_path/protos, where dep_path is
apps/name or packages/name according to the dependency's own kind. -/
def clientProtoDir (repoPath depPath : String) : String :=
  pjoin [repoPath, "repo", depPath, "protos"]

def clientProtoFile (repoPath depPath : String) : String :=
  pjoin [clientProtoDir repoPath depPath, "index.proto"]

inductive Job where
  | server (repoPath : String)
  | client (repoPath depPath : String)
deriving DecidableEq, Repr

/-- The codegen jobs one repo produces (source lines 227-244): a server
stub when the repo has its own index.proto and gen-grpc-stubs.sh, then one
client stub per app dependency, then one per package dependency flagged
grpc. -/
def stub_jobs_repo (ex : String → Bool) (type : String) (r : Repo) : List Job :=
  (if ex (pjoin [type, r.name, "protos", "index.proto"])
      && ex (pjoin [type, r.name, "gen-grpc-stubs.sh"])
   then [Job.server (pjoin [type, r.name])] else [])
  ++ r.deps.apps.map (fun a => Job.client (pjoin [type, r.name]) (pjoin ["apps", a]))
  ++ (r.deps.packages.filter (fun p => p.grpc)).map
      (fun p => Job.client (pjoin [type, r.name]) (pjoin ["packages", p.name]))

/-- All codegen jobs, apps before packages (source line 225). -/
def stub_jobs (ex : String → Bool) (c : ReposWithDeps) : List Job :=
  flatAll (c.apps.map (stub_jobs_repo ex "apps"))
  ++ flatAll (c.packages.map (stub_jobs_repo ex "packages"))

inductive StubEvent where
  | serverRun (repoPath : String) (ok : Bool)
  | clientRun (repoPath depPath : String) (ok : Bool)
deriving DecidableEq, Repr

/-- Whether a job throws before invoking the generator: a client stub
throws when the materialized index.proto is absent (source line 180); the
server stub is only scheduled after the caller checked the same existence
conditions the function rechecks, so it does not throw. -/
def jobAborts (ex : String → Bool) : Job → Bool
  | .server _ => false
  | .client rp dp => !(ex (clientProtoFile rp dp))

/-- The logged outcome of a job that ran: the generator invocation is
wrapped in try/catch inside the source functions, so a failing generator
becomes a logged event, not an exception. -/
def jobEvent (sgok : String → Bool) (gok : String → String → Bool) : Job → StubEvent
  | .server rp => .serverRun rp (sgok rp)
  | .client rp dp => .clientRun rp dp (gok rp dp)

def abortMsg : Job → String
  | .server rp => rp
  | .client _ dp => "index.proto not found in " ++ dp

/-- Running the codegen walk: the throw of a missing index.proto is not
caught anywhere in create_all_grpc_stubs, so it ends the walk; generator
failures are logged events and the walk continues. -/
def run_stubs (ex : String → Bool) (sgok : String → Bool) (gok : String → String → Bool) :
    List Job → List StubEvent × Option String
  | [] => ([], none)
  | j :: js =>
    if jobAborts ex j then ([], some (abortMsg j))
    else
      let r := run_stubs ex sgok gok js
      (jobEvent sgok gok j :: r.1, r.2)

/-- create_all_grpc_stubs (source lines 222-249) under the oracles. -/
def create_all_grpc_stubs (ex : String → Bool) (sgok : String → Bool)
    (gok : String → String → Bool) (c : ReposWithDeps) : List StubEvent × Option String :=
  run_stubs ex sgok gok (stub_jobs ex c)

/-! ## Command handlers (source lines 285-315) -/

/-- The link (is_link = true) and clone (is_link = false) commands: run the
cycle check; when it reports a cycle, return without materializing
anything; otherwise the orchestrator attempts every edge.  The result is
the list of materialization edges the run attempts, tagged with the mode. -/
def run_mat_cmd (c : ReposWithDeps) (is_link : Bool) : List (MatEdge × Bool) :=
  if check_circular_deps c then [] else (dep_edges c).map (fun e => (e, is_link))

/-- The grpc command: run the cycle check; when it reports a cycle, return
without generating anything. -/
def grpc_cmd (c : ReposWithDeps) (ex : String → Bool) (sgok : String → Bool)
    (gok : String → String → Bool) : List StubEvent × Option String :=
  if check_circular_deps c then ([], none) else create_all_grpc_stubs ex sgok gok c

/-! ## Invariants and measures for the DFS correctness proof -/

/-- Structural invariant of the DFS state: both lists are duplicate free,
the stack is contained in the visited set, visited names are names of
repos, and consecutive stack entries are joined by resolved edges (each
entry was pushed as a dependency of the entry below it). -/
structure StInv (rs : List Repo) (st : DfsSt) : Prop where
  vNodup : st.visited.Nodup
  sNodup : st.stack.Nodup
  sSubV : ∀ n ∈ st.stack, n ∈ st.visited
  vNames : ∀ n ∈ st.visited, ∃ r ∈ rs, r.name = n
  chainS : List.Chain' (fun a b => Edge rs b a) st.stack

/-- Completeness invariant: a finished (visited, off-stack) name cannot
reach any directed cycle. -/
def BInv (rs : List Repo) (st : DfsSt) : Prop :=
  ∀ n ∈ st.visited, n ∉ st.stack → ¬ ReachesCycle rs n

/-- Number of distinct repo names not yet visited; the fuel adequacy
measure. -/
def unvisitedCount (rs : List Repo) (st : DfsSt) : Nat :=
  ((namesOf rs).dedup.filter (fun n => decide (n ∉ st.visited))).length

/-! ## Path enumeration of an abstract tree, for the copy-filter claims -/

mutual
def pathsOfTree (abs : String) : FSTree → List String
  | .file _ => [abs]
  | .symlink _ => [abs]
  | .dir es => abs :: pathsOfEntries abs es
def pathsOfEntries (abs : String) : FSEntries → List String
  | .nil => []
  | .cons n t rest => pathsOfTree (abs ++ "/" ++ n) t ++ pathsOfEntries abs rest
end

/-! ## Concrete configurations used as witnesses and counterexamples -/

/-- Three packages A, B, C with A depending on B and a cycle B -> C -> B
that does not pass through A. -/
def cexC1 : ReposWithDeps :=
  ⟨[], [⟨"A", ⟨[], [⟨"B", false⟩]⟩⟩, ⟨"B", ⟨[], [⟨"C", false⟩]⟩⟩, ⟨"C", ⟨[], [⟨"B", false⟩]⟩⟩]⟩

/-- An acyclic configuration: app x depends on package p. -/
def cfgW : ReposWithDeps :=
  ⟨[⟨"x", ⟨[], [⟨"p", false⟩]⟩⟩], [⟨"p", ⟨[], []⟩⟩]⟩

/-- A package depending on itself: the smallest cyclic configuration. -/
def cfgCyc : ReposWithDeps := ⟨[], [⟨"s", ⟨[], [⟨"s", false⟩]⟩⟩]⟩

/-- An app and a package both named X; the package X declares a dependency
cycle with package Y that is only reachable through the package X node. -/
def cfgC10 : ReposWithDeps :=
  ⟨[⟨"X", ⟨[], []⟩⟩], [⟨"X", ⟨[], [⟨"Y", false⟩]⟩⟩, ⟨"Y", ⟨[], [⟨"X", false⟩]⟩⟩]⟩

/-- The same two packages without the shadowing app. -/
def cfgC10noApp : ReposWithDeps :=
  ⟨[], [⟨"X", ⟨[], [⟨"Y", false⟩]⟩⟩, ⟨"Y", ⟨[], [⟨"X", false⟩]⟩⟩]⟩

/-- App x with a grpc-flagged package dependency p. -/
def cfgC4 : ReposWithDeps :=
  ⟨[⟨"x", ⟨[], [⟨"p", true⟩]⟩⟩], [⟨"p", ⟨[], []⟩⟩]⟩

/-- Package r depending on packages a and b, which exist and have no
dependencies. -/
def cfgC5 : ReposWithDeps :=
  ⟨[], [⟨"r", ⟨[], [⟨"a", false⟩, ⟨"b", false⟩]⟩⟩, ⟨"a", ⟨[], []⟩⟩, ⟨"b", ⟨[], []⟩⟩]⟩

/-- Failure oracle: materializing from packages/a throws. -/
def failsC5 : MatEdge → Bool := fun e => e.src == "packages/a"

/-- App x with two app dependencies a and b. -/
def cfgC6 : ReposWithDeps := ⟨[⟨"x", ⟨["a", "b"], []⟩⟩], []⟩

/-- Existence oracle for cfgC6: only the materialized index.proto of the
second dependency exists. -/
def exC6 : String → Bool := fun s => s == "apps/x/repo/apps/b/protos/index.proto"

def alwaysTrue : String → Bool := fun _ => true

def gokTrue : String → String → Bool := fun _ _ => true

/-- Package X declaring a package dependency on the name ghost, which no
repo has. -/
def cfgC8 : ReposWithDeps := ⟨[], [⟨"X", ⟨[], [⟨"ghost", false⟩]⟩⟩]⟩

/-- The same configuration without the dangling declaration. -/
def cfgC8base : ReposWithDeps := ⟨[], [⟨"X", ⟨[], []⟩⟩]⟩

/-- The materialization edge the orchestrator builds for the dangling
dependency of cfgC8. -/
def ghostEdge : MatEdge := ⟨"packages/ghost", "packages/X/repo/packages/ghost/contents"⟩

/-- Failure oracle: copying from the nonexistent packages/ghost throws. -/
def failsGhost : MatEdge → Bool := fun e => e.src == "packages/ghost"

/-- A dependency tree holding a normal source file and a file whose name
contains .git as a substring without any path segment being .git. -/
def treeC9 : FSTree :=
  .dir (.cons "main.c" (.file "int main") (.cons "notes.github.md" (.file "notes") .nil))

/-- What copy mode produces from treeC9: the notes.github.md entry is
silently dropped. -/
def treeC9copied : FSTree := .dir (.cons "main.c" (.file "int main") .nil)

/-! ## Pre- and postconditions of the DFS functions -/

/-- Precondition of a visit call: enough fuel, both invariants, the repo is
a node, the repo is the first match for its own name unless already
visited (true for outer-loop calls of non-first duplicates only after their
first occurrence was visited, which the outer-loop lemma establishes), and
the top of the stack, if any, has a resolved edge to this repo. -/
def VisitPre (rs : List Repo) (fuel : Nat) (repo : Repo) (st : DfsSt) : Prop :=
  unvisitedCount rs st + 2 ≤ fuel ∧ StInv rs st ∧ BInv rs st ∧ repo ∈ rs
  ∧ (repo.name ∈ st.visited ∨ findRepo rs repo.name = some repo)
  ∧ (st.stack = [] ∨ ∃ h t, st.stack = h :: t ∧ Edge rs h repo.name)

/-- Postcondition of a visit call: a true result means the visited repo
reaches a cycle; a false result restores the stack exactly, only grows the
visited set, marks the repo visited, implies the repo was not on the stack,
and preserves both invariants. -/
def VisitPost (rs : List Repo) (st : DfsSt) (nm : String) (out : Bool × DfsSt) : Prop :=
  (out.1 = true → ReachesCycle rs nm)
  ∧ (out.1 = false →
      out.2.stack = st.stack
      ∧ (∀ n ∈ st.visited, n ∈ out.2.visited)
      ∧ nm ∈ out.2.visited
      ∧ nm ∉ st.stack
      ∧ StInv rs out.2 ∧ BInv rs out.2)

/-- Postcondition of the dependency loop of one visit body, pn being the
name on top of the stack (the repo being visited): a true result means pn
reaches a cycle; a false result restores the stack, grows visited,
preserves the invariants, and leaves every resolvable processed dependency
visited and off the stack. -/
def GoPost (rs : List Repo) (st : DfsSt) (pn : String) (deps : List String)
    (out : Bool × DfsSt) : Prop :=
  (out.1 = true → ReachesCycle rs pn)
  ∧ (out.1 = false →
      out.2.stack = st.stack
      ∧ (∀ n ∈ st.visited, n ∈ out.2.visited)
      ∧ StInv rs out.2 ∧ BInv rs out.2
      ∧ ∀ d ∈ deps, (findRepo rs d).isSome = true → d ∈ out.2.visited ∧ d ∉ out.2.stack)

/-- Postcondition of the outer loop over the remaining node list. -/
def LoopPost (rs : List Repo) (procd : List Repo) (st : DfsSt)
    (out : Option String × DfsSt) : Prop :=
  (∀ n, out.1 = some n → ReachesCycle rs n)
  ∧ (out.1 = none →
      out.2.stack = [] ∧ StInv rs out.2 ∧ BInv rs out.2
      ∧ (∀ n ∈ st.visited, n ∈ out.2.visited)
      ∧ ∀ r ∈ procd, r.name ∈ out.2.visited)

/-! ## Equation lemmas for the fueled DFS -/

theorem visit_zero (rs : List Repo) (repo : Repo) (st : DfsSt) :
    visit rs 0 repo st = (false, st) := rfl

theorem visit_succ (rs : List Repo) (fuel : Nat) (repo : Repo) (st : DfsSt) :
    visit rs (fuel + 1) repo st =
      (if repo.name ∈ st.stack then (true, st)
       else if repo.name ∈ st.visited then (false, st)
       else
         let r := goF (visit rs fuel) rs (depNames repo)
           ⟨repo.name :: st.visited, repo.name :: st.stack⟩
         if r.1 then (true, r.2)
         else (false, ⟨r.2.visited, r.2.stack.erase repo.name⟩)) := rfl

/-! ## Basic facts about resolution, edges and cycles -/

theorem findRepo_name_eq {rs : List Repo} {n : String} {r : Repo}
    (h : findRepo rs n = some r) : r.name = n := by
  have := List.find?_some h
  simpa using this

theorem findRepo_mem {rs : List Repo} {n : String} {r : Repo}
    (h : findRepo rs n = some r) : r ∈ rs :=
  List.mem_of_find?_eq_some h

theorem findRepo_isSome_iff {rs : List Repo} {n : String} :
    (findRepo rs n).isSome = true ↔ n ∈ namesOf rs := by
  unfold findRepo namesOf
  rw [List.find?_isSome]
  constructor
  · rintro ⟨r, hr, hb⟩
    exact List.mem_map.mpr ⟨r, hr, by simpa using hb⟩
  · rintro hm
    rcases List.mem_map.mp hm with ⟨r, hr, hb⟩
    exact ⟨r, hr, by simpa using hb⟩

theorem rc_of_cycle {rs : List Repo} {n : String}
    (h : Relation.TransGen (Edge rs) n n) : ReachesCycle rs n :=
  ⟨n, Relation.ReflTransGen.refl, h⟩

theorem hasCycle_of_rc {rs : List Repo} {n : String}
    (h : ReachesCycle rs n) : HasCycle rs := by
  rcases h with ⟨m, _, hc⟩
  exact ⟨m, hc⟩

theorem rc_of_edge {rs : List Repo} {a b : String}
    (h : Edge rs a b) (hb : ReachesCycle rs b) : ReachesCycle rs a := by
  rcases hb with ⟨m, hr, hc⟩
  exact ⟨m, Relation.ReflTransGen.head h hr, hc⟩

theorem not_rc_of_children {rs : List Repo} {a : String}
    (h : ∀ x, Edge rs a x → ¬ ReachesCycle rs x) : ¬ ReachesCycle rs a := by
  rintro ⟨m, hr, hc⟩
  rcases Relation.ReflTransGen.cases_head hr with heq | ⟨x, hax, hxm⟩
  · subst heq
    rcases Relation.TransGen.head'_iff.mp hc with ⟨x, hax, hxa⟩
    exact h x hax ⟨a, hxa, hc⟩
  · exact h x hax ⟨m, hxm, hc⟩

/-- Every element of an edge-chained stack reaches the stack head. -/
theorem reach_head_of_chain (rs : List Repo) :
    ∀ (l : List String) (x hd : String),
      List.Chain' (fun a b => Edge rs b a) l → l.head? = some hd → x ∈ l →
      Relation.ReflTransGen (Edge rs) x hd := by
  intro l
  induction l with
  | nil => intro x hd _ hh _; simp at hh
  | cons a t ih =>
    intro x hd hch hh hx
    have ha : a = hd := by simpa using hh
    subst ha
    rcases List.mem_cons.mp hx with rfl | hxt
    · exact Relation.ReflTransGen.refl
    · cases t with
      | nil => simp at hxt
      | cons b t' =>
        have hab : Edge rs b a := (List.chain'_cons.mp hch).1
        have hch' : List.Chain' (fun a b => Edge rs b a) (b :: t') :=
          (List.chain'_cons.mp hch).2
        have hxb : Relation.ReflTransGen (Edge rs) x b :=
          ih x b hch' rfl hxt
        exact Relation.ReflTransGen.tail hxb hab

/-! ## Fuel measure lemmas -/

theorem unvisitedCount_le (rs : List Repo) (st : DfsSt) :
    unvisitedCount rs st ≤ rs.length := by
  unfold unvisitedCount
  calc ((namesOf rs).dedup.filter (fun n => decide (n ∉ st.visited))).length
      ≤ (namesOf rs).dedup.length := List.length_filter_le _ _
    _ ≤ (namesOf rs).length := (List.dedup_sublist _).length_le
    _ = rs.length := List.length_map _ _

theorem unvisitedCount_mono {rs : List Repo} {st st' : DfsSt}
    (h : ∀ n ∈ st.visited, n ∈ st'.visited) :
    unvisitedCount rs st' ≤ unvisitedCount rs st := by
  unfold unvisitedCount
  refine List.Sublist.length_le (List.monotone_filter_right _ ?_)
  intro a ha
  have ha' : a ∉ st'.visited := of_decide_eq_true ha
  exact decide_eq_true (fun hin => ha' (h a hin))

theorem unvisitedCount_push {rs : List Repo} {st : DfsSt} {n : String} {s2 : List String}
    (hn : n ∈ namesOf rs) (hnv : n ∉ st.visited) :
    unvisitedCount rs ⟨n :: st.visited, s2⟩ + 1 ≤ unvisitedCount rs st := by
  unfold unvisitedCount
  rw [show (⟨n :: st.visited, s2⟩ : DfsSt).visited = n :: st.visited from rfl]
  have hsub : ((namesOf rs).dedup.filter (fun m => decide (m ∉ n :: st.visited))).Sublist
      ((namesOf rs).dedup.filter (fun m => decide (m ∉ st.visited))) := by
    refine List.monotone_filter_right _ ?_
    intro a ha
    have ha' : a ∉ n :: st.visited := of_decide_eq_true ha
    exact decide_eq_true (fun hin => ha' (List.mem_cons_of_mem _ hin))
  have hnf : n ∈ (namesOf rs).dedup.filter (fun m => decide (m ∉ st.visited)) :=
    List.mem_filter.mpr ⟨List.mem_dedup.mpr hn, decide_eq_true hnv⟩
  have hnot : n ∉ (namesOf rs).dedup.filter (fun m => decide (m ∉ n :: st.visited)) := by
    intro hmem
    have := of_decide_eq_true (List.mem_filter.mp hmem).2
    exact this (List.mem_cons_self _ _)
  have hle := hsub.length_le
  have hne : ((namesOf rs).dedup.filter (fun m => decide (m ∉ n :: st.visited))).length ≠
      ((namesOf rs).dedup.filter (fun m => decide (m ∉ st.visited))).length := by
    intro he
    exact hnot (hsub.eq_of_length he ▸ hnf)
  omega

/-! ## The DFS loop specification -/

theorem goF_spec (rs : List Repo) (fuel : Nat)
    (hvf : ∀ repo st, VisitPre rs fuel repo st →
      VisitPost rs st repo.name (visit rs fuel repo st)) :
    ∀ (deps : List String) (st : DfsSt) (pn : String) (prepo : Repo),
      unvisitedCount rs st + 2 ≤ fuel → StInv rs st → BInv rs st →
      st.stack.head? = some pn → findRepo rs pn = some prepo →
      (∀ d ∈ deps, d ∈ depNames prepo) →
      GoPost rs st pn deps (goF (visit rs fuel) rs deps st) := by
  intro deps
  induction deps with
  | nil =>
    intro st pn prepo _ hSt hB _ _ _
    constructor
    · intro h; simp [goF] at h
    · intro _
      exact ⟨rfl, fun n hn => hn, hSt, hB, fun d hd => by simp at hd⟩
  | cons d ds ih =>
    intro st pn prepo hfuel hSt hB hhd hfp hdeps
    obtain ⟨t0, hstk⟩ : ∃ t0, st.stack = pn :: t0 := by
      cases hs : st.stack with
      | nil => rw [hs] at hhd; simp at hhd
      | cons a t => rw [hs] at hhd; simp at hhd; exact ⟨t, by rw [hhd]⟩
    cases hfd : findRepo rs d with
    | none =>
      have hgo := ih st pn prepo hfuel hSt hB hhd hfp
        (fun x hx => hdeps x (List.mem_cons_of_mem _ hx))
      have hred : goF (visit rs fuel) rs (d :: ds) st = goF (visit rs fuel) rs ds st := by
        simp [goF, hfd]
      rw [hred]
      refine ⟨hgo.1, ?_⟩
      intro hfalse
      obtain ⟨g1, g2, g3, g4, g5⟩ := hgo.2 hfalse
      refine ⟨g1, g2, g3, g4, ?_⟩
      intro x hx hxres
      rcases List.mem_cons.mp hx with rfl | hx'
      · rw [hfd] at hxres; simp at hxres
      · exact g5 x hx' hxres
    | some dep =>
      have hdn : dep.name = d := findRepo_name_eq hfd
      have hedge : Edge rs pn d :=
        ⟨prepo, hfp, hdeps d (List.mem_cons_self _ _), by rw [hfd]; rfl⟩
      have hpre : VisitPre rs fuel dep st :=
        ⟨hfuel, hSt, hB, findRepo_mem hfd, Or.inr (by rw [hdn]; exact hfd),
         Or.inr ⟨pn, t0, hstk, by rw [hdn]; exact hedge⟩⟩
      have hv := hvf dep st hpre
      cases hr : (visit rs fuel dep st).1 with
      | true =>
        have hred : goF (visit rs fuel) rs (d :: ds) st = (true, (visit rs fuel dep st).2) := by
          simp [goF, hfd, hr]
        rw [hred]
        constructor
        · intro _
          have hrc : ReachesCycle rs dep.name := hv.1 hr
          rw [hdn] at hrc
          exact rc_of_edge hedge hrc
        · intro h; simp at h
      | false =>
        obtain ⟨hstk2, hvis2, hdmem, hdnst, hSt2, hB2⟩ := hv.2 hr
        have hred : goF (visit rs fuel) rs (d :: ds) st =
            goF (visit rs fuel) rs ds (visit rs fuel dep st).2 := by
          simp [goF, hfd, hr]
        rw [hred]
        have hfuel2 : unvisitedCount rs (visit rs fuel dep st).2 + 2 ≤ fuel := by
          have := @unvisitedCount_mono rs st (visit rs fuel dep st).2 hvis2
          omega
        have hhd2 : (visit rs fuel dep st).2.stack.head? = some pn := by
          rw [hstk2, hstk]; rfl
        have hgo := ih (visit rs fuel dep st).2 pn prepo hfuel2 hSt2 hB2 hhd2 hfp
          (fun x hx => hdeps x (List.mem_cons_of_mem _ hx))
        refine ⟨hgo.1, ?_⟩
        intro hfalse
        obtain ⟨g1, g2, g3, g4, g5⟩ := hgo.2 hfalse
        refine ⟨by rw [g1, hstk2], fun n hn => g2 n (hvis2 n hn), g3, g4, ?_⟩
        intro x hx hxres
        rcases List.mem_cons.mp hx with rfl | hx'
        · rw [hdn] at hdmem hdnst
          refine ⟨g2 x hdmem, ?_⟩
          rw [g1, hstk2]
          exact hdnst
        · exact g5 x hx' hxres

theorem visit_spec (rs : List Repo) :
    ∀ (fuel : Nat) (repo : Repo) (st : DfsSt),
      VisitPre rs fuel repo st → VisitPost rs st repo.name (visit rs fuel repo st) := by
  intro fuel
  induction fuel with
  | zero =>
    intro repo st hpre
    exfalso
    obtain ⟨hfuel, -⟩ := hpre
    omega
  | succ fuel ih =>
    intro repo st hpre
    obtain ⟨hfuel, hSt, hB, hmem, hres, hlink⟩ := hpre
    rw [visit_succ]
    by_cases h1 : repo.name ∈ st.stack
    · rw [if_pos h1]
      constructor
      · intro _
        rcases hlink with hnil | ⟨hd, t, hstk, hedge⟩
        · rw [hnil] at h1; simp at h1
        · have hreach : Relation.ReflTransGen (Edge rs) repo.name hd :=
            reach_head_of_chain rs st.stack repo.name hd hSt.chainS (by rw [hstk]; rfl) h1
          exact rc_of_cycle (Relation.TransGen.tail' hreach hedge)
      · intro h; simp at h
    · rw [if_neg h1]
      by_cases h2 : repo.name ∈ st.visited
      · rw [if_pos h2]
        exact ⟨fun h => by simp at h,
               fun _ => ⟨rfl, fun n hn => hn, h2, h1, hSt, hB⟩⟩
      · rw [if_neg h2]
        have hres' : findRepo rs repo.name = some repo := hres.resolve_left h2
        set st1 : DfsSt := ⟨repo.name :: st.visited, repo.name :: st.stack⟩ with hst1
        have hv1 : st1.visited = repo.name :: st.visited := rfl
        have hs1 : st1.stack = repo.name :: st.stack := rfl
        have hSt1 : StInv rs st1 := by
          constructor
          · rw [hv1]; exact List.nodup_cons.mpr ⟨h2, hSt.vNodup⟩
          · rw [hs1]; exact List.nodup_cons.mpr ⟨h1, hSt.sNodup⟩
          · intro n hn
            rw [hs1] at hn; rw [hv1]
            rcases List.mem_cons.mp hn with rfl | hn'
            · exact List.mem_cons_self _ _
            · exact List.mem_cons_of_mem _ (hSt.sSubV n hn')
          · intro n hn
            rw [hv1] at hn
            rcases List.mem_cons.mp hn with rfl | hn'
            · exact ⟨repo, hmem, rfl⟩
            · exact hSt.vNames n hn'
          · rw [hs1]
            rcases hlink with hnil | ⟨hd, t, hstk, hedge⟩
            · rw [hnil]; exact List.chain'_singleton _
            · rw [hstk]
              exact List.chain'_cons.mpr ⟨hedge, by rw [← hstk]; exact hSt.chainS⟩
        have hB1 : BInv rs st1 := by
          intro n hn hns
          rw [hv1] at hn; rw [hs1] at hns
          have hn1 : n ≠ repo.name := fun he => hns (he ▸ List.mem_cons_self _ _)
          have hnv : n ∈ st.visited := by
            rcases List.mem_cons.mp hn with rfl | h
            · exact absurd rfl hn1
            · exact h
          exact hB n hnv (fun hin => hns (List.mem_cons_of_mem _ hin))
        have hfuel1 : unvisitedCount rs st1 + 2 ≤ fuel := by
          have hpush := @unvisitedCount_push rs st repo.name (repo.name :: st.stack)
            (List.mem_map.mpr ⟨repo, hmem, rfl⟩) h2
          rw [← hst1] at hpush
          omega
        have hgo := goF_spec rs fuel ih (depNames repo) st1 repo.name repo hfuel1 hSt1 hB1
          (by rw [hs1]; rfl) hres' (fun d hd => hd)
        cases hr : (goF (visit rs fuel) rs (depNames repo) st1).1 with
        | true =>
          simp only [hr, if_true]
          exact ⟨fun _ => hgo.1 hr, fun h => by simp at h⟩
        | false =>
          simp only [hr, if_false]
          obtain ⟨g1, g2, g3, g4, g5⟩ := hgo.2 hr
          have hstk3 : (goF (visit rs fuel) rs (depNames repo) st1).2.stack.erase repo.name
              = st.stack := by
            rw [g1, hs1]
            exact List.erase_cons_head _ _
          constructor
          · intro h; simp at h
          · intro _
            refine ⟨hstk3, ?_, ?_, h1, ?_, ?_⟩
            · intro n hn
              exact g2 n (by rw [hv1]; exact List.mem_cons_of_mem _ hn)
            · exact g2 repo.name (by rw [hv1]; exact List.mem_cons_self _ _)
            · constructor
              · exact g3.vNodup
              · show ((goF (visit rs fuel) rs (depNames repo) st1).2.stack.erase repo.name).Nodup
                rw [hstk3]
                exact hSt.sNodup
              · intro n hn
                have hn' : n ∈ st.stack := by rw [← hstk3]; exact hn
                exact g2 n (by rw [hv1]; exact List.mem_cons_of_mem _ (hSt.sSubV n hn'))
              · exact g3.vNames
              · show List.Chain' (fun a b => Edge rs b a)
                  ((goF (visit rs fuel) rs (depNames repo) st1).2.stack.erase repo.name)
                rw [hstk3]
                exact hSt.chainS
            · intro n hn hns
              have hns' : n ∉ st.stack := by rw [← hstk3]; exact hns
              by_cases hneq : n = repo.name
              · subst hneq
                apply not_rc_of_children
                intro x hx
                obtain ⟨r0, hf0, hxd, hxres⟩ := hx
                have hr0 : r0 = repo := by
                  have := hf0.symm.trans hres'
                  exact Option.some.inj this
                subst hr0
                have hxin := g5 x hxd hxres
                exact g4 x hxin.1 hxin.2
              · have hn1 : n ∉ st1.stack := by
                  rw [hs1]
                  intro hin
                  rcases List.mem_cons.mp hin with h | h
                  · exact hneq h
                  · exact hns' h
                exact g4 n hn (by rw [g1]; exact hn1)

/-! ## The outer loop specification and the main correctness theorem -/

theorem checkLoop_spec (rs : List Repo) :
    ∀ (rest : List Repo) (st : DfsSt) (pre tl : List Repo),
      rs = pre ++ rest ++ tl →
      (∀ p ∈ pre, p.name ∈ st.visited) →
      st.stack = [] → StInv rs st → BInv rs st →
      LoopPost rs rest st (checkLoop rs (rs.length + 2) rest st) := by
  intro rest
  induction rest with
  | nil =>
    intro st pre tl hdec hpre hstk hSt hB
    constructor
    · intro n h; simp [checkLoop] at h
    · intro _
      exact ⟨hstk, hSt, hB, fun n hn => hn, fun r hr => by simp at hr⟩
  | cons repo rest' ih =>
    intro st pre tl hdec hpre hstk hSt hB
    have hmem : repo ∈ rs := by
      rw [hdec]
      exact List.mem_append_left _ (List.mem_append_right _ (List.mem_cons_self _ _))
    have hres : repo.name ∈ st.visited ∨ findRepo rs repo.name = some repo := by
      by_cases hp : ∃ p ∈ pre, p.name = repo.name
      · rcases hp with ⟨p, hpm, hpn⟩
        exact Or.inl (hpn ▸ hpre p hpm)
      · right
        rw [hdec]
        have h1 : List.find? (fun r => r.name == repo.name) pre = none := by
          rw [List.find?_eq_none]
          intro x hx hbx
          exact hp ⟨x, hx, by simpa using hbx⟩
        unfold findRepo
        rw [List.append_assoc, List.find?_append, h1, List.cons_append,
          List.find?_cons_of_pos _ (by simp)]
        rfl
    have hpre' : VisitPre rs (rs.length + 2) repo st :=
      ⟨by have := unvisitedCount_le rs st; omega, hSt, hB, hmem, hres, Or.inl hstk⟩
    have hv := visit_spec rs (rs.length + 2) repo st hpre'
    cases hr : (visit rs (rs.length + 2) repo st).1 with
    | true =>
      have hred : checkLoop rs (rs.length + 2) (repo :: rest') st
          = (some repo.name, (visit rs (rs.length + 2) repo st).2) := by
        simp [checkLoop, hr]
      rw [hred]
      constructor
      · intro n hn
        have he : repo.name = n := by simpa using hn
        exact he ▸ hv.1 hr
      · intro h; simp at h
    | false =>
      obtain ⟨hstk2, hvis2, hnm, hnst, hSt2, hB2⟩ := hv.2 hr
      have hred : checkLoop rs (rs.length + 2) (repo :: rest') st
          = checkLoop rs (rs.length + 2) rest' (visit rs (rs.length + 2) repo st).2 := by
        simp [checkLoop, hr]
      rw [hred]
      have hgo := ih (visit rs (rs.length + 2) repo st).2 (pre ++ [repo]) tl
        (by rw [hdec]; simp)
        (by
          intro p hp
          rcases List.mem_append.mp hp with h | h
          · exact hvis2 p.name (hpre p h)
          · have he : p = repo := by simpa using h
            exact he ▸ hnm)
        (by rw [hstk2, hstk])
        hSt2 hB2
      refine ⟨hgo.1, ?_⟩
      intro hnone
      obtain ⟨l1, l2, l3, l4, l5⟩ := hgo.2 hnone
      refine ⟨l1, l2, l3, fun n hn => l4 n (hvis2 n hn), ?_⟩
      intro r hrm
      rcases List.mem_cons.mp hrm with rfl | h
      · exact l4 r.name hnm
      · exact l5 r h

theorem checkList_spec (rs : List Repo) : LoopPost rs rs ⟨[], []⟩ (checkList rs) := by
  have hinit : StInv rs ⟨[], []⟩ := by
    refine ⟨List.nodup_nil, List.nodup_nil, ?_, ?_, List.chain'_nil⟩
    · intro n hn; simp at hn
    · intro n hn; simp at hn
  have hbinit : BInv rs ⟨[], []⟩ := by
    intro n hn; simp at hn
  unfold checkList
  exact checkLoop_spec rs rs ⟨[], []⟩ [] [] (by simp) (by simp) rfl hinit hbinit

theorem check_true_iff (c : ReposWithDeps) :
    check_circular_deps c = true ↔ HasCycle (allRepos c) := by
  have hspec := checkList_spec (allRepos c)
  constructor
  · intro h
    unfold check_circular_deps at h
    rcases Option.isSome_iff_exists.mp h with ⟨n, hn⟩
    exact hasCycle_of_rc (hspec.1 n hn)
  · intro hcyc
    by_contra hne
    have hfalse : check_circular_deps c = false := by
      cases h : check_circular_deps c
      · rfl
      · exact absurd h hne
    have hnone : (checkList (allRepos c)).1 = none := by
      unfold check_circular_deps at hfalse
      exact Option.not_isSome_iff_eq_none.mp (by rw [hfalse]; simp)
    obtain ⟨hstk, _, hB, _, hcov⟩ := hspec.2 hnone
    rcases hcyc with ⟨n, hcycn⟩
    rcases Relation.TransGen.head'_iff.mp hcycn with ⟨x, hnx, _⟩
    obtain ⟨r, hfr, -, -⟩ := hnx
    have hnin : n ∈ (checkList (allRepos c)).2.visited := by
      have := hcov r (findRepo_mem hfr)
      rw [findRepo_name_eq hfr] at this
      exact this
    exact hB n hnin (by rw [hstk]; simp) (rc_of_cycle hcycn)


/-! ## Materializer theorems -/

/-- C3: if the target path already exists when process_dep runs, it is
removed first (a symbolic link is unlinked directly, anything else is
removed recursively and forcibly), so the result never depends on the old
target: running materialization twice with the same mode leaves the target
unchanged, switching modes replaces the previous artifact with one of the
newly requested mode, and in Link mode the created symlink points at the
absolute resolved source path. -/
theorem process_dep_idempotent_and_converges :
    (∀ o : Option FSTree, remove_target o = none)
    ∧ (∀ (s : String) (t : FSTree) (o : Option FSTree) (m : Bool),
        process_dep s t (process_dep s t o m) m = process_dep s t o m)
    ∧ (∀ (s : String) (t : FSTree) (o : Option FSTree) (m m' : Bool),
        process_dep s t (process_dep s t o m) m' = process_dep s t o m')
    ∧ (∀ (s : String) (t : FSTree) (o : Option FSTree),
        process_dep s t o true = some (.symlink s))
    ∧ (∀ (s : String) (t : FSTree) (o : Option FSTree),
        process_dep s t o false = copyTree s t) := by
  refine ⟨?_, ?_, ?_, ?_, ?_⟩
  · intro o
    rcases o with - | t
    · rfl
    · cases t <;> rfl
  · intro s t o m; rfl
  · intro s t o m m'; rfl
  · intro s t o; rfl
  · intro s t o; rfl

theorem copyTree_none_of_filtered {p : String} (t : FSTree)
    (h : filterOk p = false) : copyTree p t = none := by
  cases t <;> simp [copyTree, h]

theorem copy_paths_ok_tree (t : FSTree) :
    ∀ (p : String) (u : FSTree), copyTree p t = some u →
      ∀ q ∈ pathsOfTree p u, filterOk q = true := by
  refine @FSTree.rec
    (fun t => ∀ (p : String) (u : FSTree), copyTree p t = some u →
      ∀ q ∈ pathsOfTree p u, filterOk q = true)
    (fun es => ∀ (p : String), ∀ q ∈ pathsOfEntries p (copyEntries p es), filterOk q = true)
    ?_ ?_ ?_ ?_ ?_ t
  · intro c p u hu q hq
    by_cases hf : filterOk p
    · simp only [copyTree, hf, if_true] at hu
      obtain rfl := (Option.some.inj hu).symm
      simp [pathsOfTree] at hq
      rw [hq]
      exact hf
    · simp [copyTree, hf] at hu
  · intro s p u hu q hq
    by_cases hf : filterOk p
    · simp only [copyTree, hf, if_true] at hu
      obtain rfl := (Option.some.inj hu).symm
      simp [pathsOfTree] at hq
      rw [hq]
      exact hf
    · simp [copyTree, hf] at hu
  · intro es ih p u hu q hq
    by_cases hf : filterOk p
    · simp only [copyTree, hf, if_true] at hu
      obtain rfl := (Option.some.inj hu).symm
      simp only [pathsOfTree] at hq
      rcases List.mem_cons.mp hq with rfl | hq'
      · exact hf
      · exact ih p q hq'
    · simp [copyTree, hf] at hu
  · intro p q hq
    simp [copyEntries, pathsOfEntries] at hq
  · intro n t' rest iht ihr p q hq
    simp only [copyEntries] at hq
    cases hc : copyTree (p ++ "/" ++ n) t' with
    | none =>
      rw [hc] at hq
      exact ihr p q hq
    | some u' =>
      rw [hc] at hq
      simp only [pathsOfEntries] at hq
      rcases List.mem_append.mp hq with hql | hqr
      · exact iht (p ++ "/" ++ n) u' hc q hql
      · exact ihr p q hqr

/-- C9: the copy-mode exclusion filter drops every source entry whose full
absolute path contains node_modules or .git anywhere as a substring, not
only as a whole path segment: every path in the copied tree satisfies the
filter; a file named notes.github.md inside the dependency is silently
omitted although no segment of its path equals .git; and when the root
absolute path itself contains either substring, nothing at all is
copied. -/
theorem copy_filter_substring_semantics :
    (∀ (p : String) (t : FSTree), filterOk p = false → copyTree p t = none)
    ∧ (∀ (p : String) (t u : FSTree), copyTree p t = some u →
        ∀ q ∈ pathsOfTree p u, filterOk q = true)
    ∧ copyTree "/mono/packages/lib" treeC9 = some treeC9copied
    ∧ includes "/mono/packages/lib/notes.github.md" ".git" = true
    ∧ (∀ seg ∈ ["mono", "packages", "lib", "notes.github.md"], seg ≠ ".git")
    ∧ (∀ (p : String) (t : FSTree), includes p ".git" = true → copyTree p t = none)
    ∧ (∀ (p : String) (t : FSTree), includes p "node_modules" = true → copyTree p t = none) := by
  refine ⟨?_, ?_, ?_, by decide, by decide, ?_, ?_⟩
  · intro p t h
    exact copyTree_none_of_filtered t h
  · intro p t u hu q hq
    exact copy_paths_ok_tree t p u hu q hq
  · rfl
  · intro p t h
    exact copyTree_none_of_filtered t (by simp [filterOk, h])
  · intro p t h
    exact copyTree_none_of_filtered t (by simp [filterOk, h])

theorem copy_filter_substring_semantics_witness :
    copyTree "x/.git" (.file "c") = none ∧ filterOk "x/.git" = false :=
  ⟨copy_filter_substring_semantics.1 "x/.git" (.file "c") (by decide), by decide⟩

/-! ## Command-gate theorems -/

/-- C2: for every invocation of the link, clone or grpc command, if the
cycle check reports a cycle, the run performs no materialization and no
codegen at all: the attempted edge list is empty and no stub job runs. -/
theorem commands_abort_on_cycle (c : ReposWithDeps)
    (h : check_circular_deps c = true) :
    (∀ b, run_mat_cmd c b = [])
    ∧ (∀ ex sgok gok, grpc_cmd c ex sgok gok = ([], none)) := by
  constructor
  · intro b; simp [run_mat_cmd, h]
  · intro ex sgok gok; simp [grpc_cmd, h]

theorem commands_abort_on_cycle_witness :
    check_circular_deps cfgCyc = true ∧ run_mat_cmd cfgCyc true = []
    ∧ grpc_cmd cfgCyc alwaysTrue alwaysTrue gokTrue = ([], none) := by
  have h : check_circular_deps cfgCyc = true := by decide
  exact ⟨h, (commands_abort_on_cycle cfgCyc h).1 true,
    (commands_abort_on_cycle cfgCyc h).2 alwaysTrue alwaysTrue gokTrue⟩

/-! ## Name-resolution theorems -/

/-- C7: when some app has the name n, dependency-target resolution by name
against the combined apps-then-packages node set returns the first app of
that name, for every repo that depends on n: resolution over the combined
list agrees with resolution over the apps alone, and the selected entry is
an app. -/
theorem resolution_app_wins (c : ReposWithDeps) (n : String)
    (h : ∃ a ∈ c.apps, a.name = n) :
    findRepo (allRepos c) n = findRepo c.apps n
    ∧ ∃ a ∈ c.apps, findRepo (allRepos c) n = some a ∧ a.name = n := by
  have hsome : (List.find? (fun r => r.name == n) c.apps).isSome := by
    rw [List.find?_isSome]
    rcases h with ⟨a, ha, han⟩
    exact ⟨a, ha, by simp [han]⟩
  rcases Option.isSome_iff_exists.mp hsome with ⟨a, ha⟩
  have h1 : findRepo (allRepos c) n = findRepo c.apps n := by
    unfold findRepo allRepos
    rw [List.find?_append, ha]
    rfl
  refine ⟨h1, a, List.mem_of_find?_eq_some ha, by rw [h1]; exact ha, ?_⟩
  simpa using List.find?_some ha

theorem resolution_app_wins_witness :
    findRepo (allRepos cfgC10) "X" = findRepo cfgC10.apps "X"
    ∧ findRepo (allRepos cfgC10) "X" = some ⟨"X", ⟨[], []⟩⟩ :=
  ⟨(resolution_app_wins cfgC10 "X" ⟨⟨"X", ⟨[], []⟩⟩, by decide, rfl⟩).1, by decide⟩

/-! ## Orchestrator failure-propagation theorems -/

theorem attempted_eq (fails : MatEdge → Bool) :
    ∀ es : List MatEdge,
      attempted fails es = (es.take (es.findIdx fails + 1), es.any fails) := by
  intro es
  induction es with
  | nil => rfl
  | cons e es ih =>
    by_cases hf : fails e
    · simp [attempted, hf, List.findIdx_cons, List.any_cons]
    · simp [attempted, hf, ih, List.findIdx_cons, List.any_cons]

/-- C5 (amended): processing of materialization edges is not isolated
per edge: process_dep is not wrapped in try/catch inside process_all_deps,
so the first failing edge aborts the loop.  The attempted edges are
exactly the prefix of the edge list through the first failure, and the run
aborts precisely when some edge fails. -/
theorem process_all_deps_abort_on_failure (c : ReposWithDeps) (fails : MatEdge → Bool) :
    (attempted fails (dep_edges c)).1
        = (dep_edges c).take ((dep_edges c).findIdx fails + 1)
    ∧ (attempted fails (dep_edges c)).2 = (dep_edges c).any fails := by
  rw [attempted_eq]
  exact ⟨rfl, rfl⟩

/-- C5 counterexample: in cfgC5 the repo r has two package dependencies;
when materializing the first edge fails, the second edge is never
attempted, contradicting the claim that a failure in one edge does not
prevent the remaining edges from being attempted. -/
theorem process_all_deps_abort_counterexample :
    dep_edges cfgC5 = [⟨"packages/a", "packages/r/repo/packages/a/contents"⟩,
                       ⟨"packages/b", "packages/r/repo/packages/b/contents"⟩]
    ∧ attempted failsC5 (dep_edges cfgC5)
        = ([⟨"packages/a", "packages/r/repo/packages/a/contents"⟩], true)
    ∧ (⟨"packages/b", "packages/r/repo/packages/b/contents"⟩ : MatEdge)
        ∉ (attempted failsC5 (dep_edges cfgC5)).1 := by
  exact ⟨by decide, by decide, by decide⟩

/-! ## Codegen failure-propagation theorems -/

theorem run_stubs_eq (ex : String → Bool) (sgok : String → Bool)
    (gok : String → String → Bool) :
    ∀ jobs : List Job,
      run_stubs ex sgok gok jobs
        = ((jobs.take (jobs.findIdx (jobAborts ex))).map (jobEvent sgok gok),
           (jobs.find? (jobAborts ex)).map abortMsg) := by
  intro jobs
  induction jobs with
  | nil => rfl
  | cons j js ih =>
    by_cases hj : jobAborts ex j
    · simp [run_stubs, hj, List.findIdx_cons, List.find?_cons_of_pos _ hj]
    · simp [run_stubs, hj, ih, List.findIdx_cons, List.find?_cons_of_neg _ hj]

/-- C6 (amended): in the codegen walk a failing generator invocation is
caught and logged per edge and the walk continues, but a missing
index.proto at the expected materialized location is not caught by any
caller: the walk ends there.  The events are exactly the jobs before the
first job whose index.proto is missing, each logged with the consumer and
dependency identified, independently of which generators fail; the error
is returned exactly when some scheduled job's index.proto is missing. -/
theorem create_all_grpc_stubs_behavior (ex : String → Bool) (sgok : String → Bool)
    (gok : String → String → Bool) (c : ReposWithDeps) :
    create_all_grpc_stubs ex sgok gok c
      = (((stub_jobs ex c).take ((stub_jobs ex c).findIdx (jobAborts ex))).map
           (jobEvent sgok gok),
         ((stub_jobs ex c).find? (jobAborts ex)).map abortMsg) := by
  unfold create_all_grpc_stubs
  rw [run_stubs_eq]

/-- C6 counterexample: in cfgC6 the repo x has two app dependencies a and
b; the materialized index.proto of a is absent, so create_all_grpc_stubs
throws before reaching b: no event is produced at all and the scheduled
second edge is never attempted, contradicting the claim that a missing
interface-definition file is caught by the caller and later edges
continue. -/
theorem create_all_grpc_stubs_abort_counterexample :
    stub_jobs exC6 cfgC6 = [Job.client "apps/x" "apps/a", Job.client "apps/x" "apps/b"]
    ∧ create_all_grpc_stubs exC6 alwaysTrue gokTrue cfgC6
        = ([], some "index.proto not found in apps/a")
    ∧ Job.client "apps/x" "apps/b" ∈ stub_jobs exC6 cfgC6 := by
  exact ⟨by decide, by decide, by decide⟩

/-! ## Materializer versus codegen path layout -/

/-- C4: the claim fails on the code.  For the app consumer x with the
grpc-flagged package dependency p, the orchestrator materializes the
protos of p at apps/x/repo/apps/p/protos, using the consumer kind for the
dependency path segment, while the codegen driver reads
apps/x/repo/packages/p/protos, using the dependency kind: the two paths
differ, and no materialized target of this configuration equals the path
the codegen driver reads. -/
theorem materializer_codegen_path_mismatch :
    (⟨"packages/p/protos", "apps/x/repo/apps/p/protos"⟩ : MatEdge) ∈ dep_edges cfgC4
    ∧ clientProtoDir "apps/x" "packages/p" = "apps/x/repo/packages/p/protos"
    ∧ Job.client "apps/x" "packages/p" ∈ stub_jobs (fun _ => false) cfgC4
    ∧ ∀ e ∈ dep_edges cfgC4, e.target ≠ clientProtoDir "apps/x" "packages/p" := by
  exact ⟨by decide, by decide, by decide, by decide⟩

/-! ## Congruence machinery: the DFS result depends on the node list only
through name resolution -/

theorem visit_congr (rs rs' : List Repo) (h : ∀ n, findRepo rs n = findRepo rs' n) :
    ∀ (fuel : Nat) (repo : Repo) (st : DfsSt),
      visit rs fuel repo st = visit rs' fuel repo st := by
  intro fuel
  induction fuel with
  | zero => intro repo st; rfl
  | succ fuel ih =>
    have hgo : ∀ (deps : List String) (st0 : DfsSt),
        goF (visit rs fuel) rs deps st0 = goF (visit rs' fuel) rs' deps st0 := by
      intro deps
      induction deps with
      | nil => intro st0; rfl
      | cons d ds ihd =>
        intro st0
        cases hfd : findRepo rs' d with
        | none =>
          have hfd0 : findRepo rs d = none := by rw [h d, hfd]
          simp only [goF, hfd0, hfd]
          exact ihd st0
        | some dep =>
          have hfd0 : findRepo rs d = some dep := by rw [h d, hfd]
          simp only [goF, hfd0, hfd]
          rw [ih dep st0]
          cases hr : (visit rs' fuel dep st0).1 with
          | true => rfl
          | false => exact ihd _
    intro repo st
    rw [visit_succ, visit_succ]
    by_cases h1 : repo.name ∈ st.stack
    · rw [if_pos h1, if_pos h1]
    · rw [if_neg h1, if_neg h1]
      by_cases h2 : repo.name ∈ st.visited
      · rw [if_pos h2, if_pos h2]
      · rw [if_neg h2, if_neg h2]
        rw [hgo (depNames repo) ⟨repo.name :: st.visited, repo.name :: st.stack⟩]

theorem checkLoop_congr (rs rs' : List Repo) (h : ∀ n, findRepo rs n = findRepo rs' n)
    (fuel : Nat) : ∀ (l : List Repo) (st : DfsSt),
      checkLoop rs fuel l st = checkLoop rs' fuel l st := by
  intro l
  induction l with
  | nil => intro st; rfl
  | cons repo rest ih =>
    intro st
    simp only [checkLoop]
    rw [visit_congr rs rs' h fuel repo st]
    cases hr : (visit rs' fuel repo st).1 with
    | true => rfl
    | false => exact ih _

theorem checkLoop_append (rs : List Repo) (fuel : Nat) :
    ∀ (l1 l2 : List Repo) (st : DfsSt),
      checkLoop rs fuel (l1 ++ l2) st =
        (if (checkLoop rs fuel l1 st).1.isSome then checkLoop rs fuel l1 st
         else checkLoop rs fuel l2 (checkLoop rs fuel l1 st).2) := by
  intro l1
  induction l1 with
  | nil => intro l2 st; simp [checkLoop]
  | cons repo l1' ih =>
    intro l2 st
    simp only [List.cons_append, checkLoop]
    cases hr : (visit rs fuel repo st).1 with
    | true => rfl
    | false => exact ih l2 _

theorem findRepo_congr_of_shadow (L R : List Repo) (p p' : Repo)
    (hn : p'.name = p.name) (hL : ∃ l ∈ L, l.name = p.name) :
    ∀ n, findRepo (L ++ p :: R) n = findRepo (L ++ p' :: R) n := by
  intro n
  by_cases he : p.name = n
  · have hsome : (List.find? (fun r => r.name == n) L).isSome := by
      rw [List.find?_isSome]
      rcases hL with ⟨l, hl, hln⟩
      exact ⟨l, hl, by simp [hln, he]⟩
    rcases Option.isSome_iff_exists.mp hsome with ⟨x, hx⟩
    unfold findRepo
    rw [List.find?_append, List.find?_append, hx]
    rfl
  · unfold findRepo
    rw [List.find?_append, List.find?_append]
    congr 1
    rw [List.find?_cons_of_neg _ (by simp [he]), List.find?_cons_of_neg _ (by simp [hn, he])]

/-! ## Dangling dependencies -/

theorem bool_eq_of_iff {a b : Bool} (h : (a = true) ↔ (b = true)) : a = b := by
  cases a <;> cases b <;> simp_all

theorem findRepo_replace_cases (L R : List Repo) (r r' : Repo) (hn : r'.name = r.name)
    (a : String) :
    (findRepo (L ++ r' :: R) a = findRepo (L ++ r :: R) a)
    ∨ (findRepo (L ++ r' :: R) a = some r' ∧ findRepo (L ++ r :: R) a = some r
       ∧ r.name = a) := by
  unfold findRepo
  rw [List.find?_append, List.find?_append]
  cases hf : List.find? (fun x => x.name == a) L with
  | some x => left; rfl
  | none =>
    by_cases he : r.name = a
    · right
      refine ⟨?_, ?_, he⟩
      · show List.find? (fun x => x.name == a) (r' :: R) = some r'
        rw [List.find?_cons_of_pos _ (by simp [hn, he])]
      · show List.find? (fun x => x.name == a) (r :: R) = some r
        rw [List.find?_cons_of_pos _ (by simp [he])]
    · left
      show List.find? (fun x => x.name == a) (r' :: R)
        = List.find? (fun x => x.name == a) (r :: R)
      rw [List.find?_cons_of_neg _ (by simp [hn, he]), List.find?_cons_of_neg _ (by simp [he])]

theorem resolvable_congr_of_names {rs rs' : List Repo} (h : namesOf rs = namesOf rs') :
    ∀ n, (findRepo rs n).isSome = (findRepo rs' n).isSome := by
  intro n
  apply bool_eq_of_iff
  rw [findRepo_isSome_iff, findRepo_isSome_iff, h]

theorem edge_congr_dangling (L R : List Repo) (r r' : Repo) (d : String)
    (hn : r'.name = r.name) (hd : depNames r' = depNames r ++ [d])
    (hdang : findRepo (L ++ r :: R) d = none) :
    ∀ a b, Edge (L ++ r' :: R) a b ↔ Edge (L ++ r :: R) a b := by
  have hnames : namesOf (L ++ r' :: R) = namesOf (L ++ r :: R) := by simp [namesOf, hn]
  have hres := resolvable_congr_of_names hnames
  have hdangres : (findRepo (L ++ r' :: R) d).isSome = false := by
    rw [hres d, hdang]; rfl
  intro a b
  constructor
  · rintro ⟨q, hfq, hbq, hbres⟩
    rcases findRepo_replace_cases L R r r' hn a with hsame | ⟨h1, h2, -⟩
    · exact ⟨q, hsame.symm.trans hfq, hbq, by rw [← hres b]; exact hbres⟩
    · have hq : q = r' := Option.some.inj (h1.symm.trans hfq).symm
      subst hq
      rw [hd] at hbq
      rcases List.mem_append.mp hbq with hbr | hbd
      · exact ⟨r, h2, hbr, by rw [← hres b]; exact hbres⟩
      · exfalso
        have hbd' : b = d := by simpa using hbd
        subst hbd'
        rw [hdangres] at hbres
        simp at hbres
  · rintro ⟨q, hfq, hbq, hbres⟩
    rcases findRepo_replace_cases L R r r' hn a with hsame | ⟨h1, h2, -⟩
    · exact ⟨q, hsame.trans hfq, hbq, by rw [hres b]; exact hbres⟩
    · have hq : q = r := Option.some.inj (h2.symm.trans hfq).symm
      subst hq
      exact ⟨r', h1, by rw [hd]; exact List.mem_append_left _ hbq, by rw [hres b]; exact hbres⟩

theorem hasCycle_congr {rs rs' : List Repo} (h : ∀ a b, Edge rs a b ↔ Edge rs' a b) :
    HasCycle rs ↔ HasCycle rs' := by
  constructor
  · rintro ⟨n, hc⟩
    exact ⟨n, Relation.TransGen.mono (fun a b hab => (h a b).mp hab) hc⟩
  · rintro ⟨n, hc⟩
    exact ⟨n, Relation.TransGen.mono (fun a b hab => (h a b).mpr hab) hc⟩

/-- C8 (amended): a declared dependency on a name that resolves to no
discovered repo is ignored by the cycle detector (adding it to any repo's
declaration never changes the check result), and graph building is total;
but the orchestrator does not skip the dangling edge: it builds and
attempts the materialization edge anyway (in cfgC8 the edge sourced at the
nonexistent packages/ghost is in the attempted list, and when copying from
the missing source fails, the run aborts). -/
theorem dangling_dep_ignored_by_cycle_check_but_materialized :
    (∀ (c c' : ReposWithDeps) (L R : List Repo) (r r' : Repo) (d : String),
      allRepos c = L ++ r :: R → allRepos c' = L ++ r' :: R →
      r'.name = r.name → depNames r' = depNames r ++ [d] →
      findRepo (allRepos c) d = none →
      check_circular_deps c' = check_circular_deps c)
    ∧ check_circular_deps cfgC8 = false
    ∧ ghostEdge ∈ dep_edges cfgC8
    ∧ attempted failsGhost (dep_edges cfgC8) = ([ghostEdge], true) := by
  refine ⟨?_, by decide, by decide, by decide⟩
  intro c c' L R r r' d h1 h2 hn hd hdang
  apply bool_eq_of_iff
  rw [check_true_iff c', check_true_iff c, h2, h1]
  rw [h1] at hdang
  exact hasCycle_congr (edge_congr_dangling L R r r' d hn hd hdang)

theorem dangling_dep_ignored_witness :
    check_circular_deps cfgC8 = check_circular_deps cfgC8base :=
  dangling_dep_ignored_by_cycle_check_but_materialized.1 cfgC8base cfgC8 [] []
    ⟨"X", ⟨[], []⟩⟩ ⟨"X", ⟨[], [⟨"ghost", false⟩]⟩⟩ "ghost" rfl rfl rfl rfl (by decide)

/-- C8 counterexample: the claim that the orchestrator skips materializing
a dangling edge without raising is false: in cfgC8 the edge from the
nonexistent packages/ghost is built and attempted (it is the whole edge
list), and when the copy from the missing source fails, the loop
aborts. -/
theorem dangling_dep_not_skipped_counterexample :
    ghostEdge ∈ dep_edges cfgC8
    ∧ dep_edges cfgC8 = [ghostEdge]
    ∧ (attempted failsGhost (dep_edges cfgC8)).2 = true := by
  exact ⟨by decide, by decide, by decide⟩

/-! ## Shadowed packages -/

theorem stinv_init (rs : List Repo) : StInv rs ⟨[], []⟩ := by
  refine ⟨List.nodup_nil, List.nodup_nil, ?_, ?_, List.chain'_nil⟩
  · intro n hn; simp at hn
  · intro n hn; simp at hn

theorem binv_init (rs : List Repo) : BInv rs ⟨[], []⟩ := by
  intro n hn; simp at hn

theorem checkList_shadowed_congr (A P Q : List Repo) (pkg pkg' : Repo) (x : String)
    (hax : ∃ a ∈ A, a.name = x) (hp : pkg.name = x) (hp' : pkg'.name = x) :
    checkList (allRepos ⟨A, P ++ pkg :: Q⟩) = checkList (allRepos ⟨A, P ++ pkg' :: Q⟩) := by
  have hrs : allRepos ⟨A, P ++ pkg :: Q⟩ = (A ++ P) ++ pkg :: Q := by
    simp [allRepos]
  have hrs' : allRepos ⟨A, P ++ pkg' :: Q⟩ = (A ++ P) ++ pkg' :: Q := by
    simp [allRepos]
  rw [hrs, hrs']
  have hfind : ∀ n, findRepo ((A ++ P) ++ pkg :: Q) n = findRepo ((A ++ P) ++ pkg' :: Q) n := by
    refine findRepo_congr_of_shadow (A ++ P) Q pkg pkg' (by rw [hp', hp]) ?_
    rcases hax with ⟨a, ha, han⟩
    exact ⟨a, List.mem_append_left _ ha, by rw [han, hp]⟩
  have hlen : ((A ++ P) ++ pkg' :: Q).length = ((A ++ P) ++ pkg :: Q).length := by simp
  unfold checkList
  rw [hlen]
  rw [checkLoop_append ((A ++ P) ++ pkg :: Q) (((A ++ P) ++ pkg :: Q).length + 2)
        (A ++ P) (pkg :: Q) ⟨[], []⟩,
      checkLoop_append ((A ++ P) ++ pkg' :: Q) (((A ++ P) ++ pkg :: Q).length + 2)
        (A ++ P) (pkg' :: Q) ⟨[], []⟩]
  rw [← checkLoop_congr ((A ++ P) ++ pkg :: Q) ((A ++ P) ++ pkg' :: Q) hfind
    (((A ++ P) ++ pkg :: Q).length + 2) (A ++ P) ⟨[], []⟩]
  cases hs : (checkLoop ((A ++ P) ++ pkg :: Q) (((A ++ P) ++ pkg :: Q).length + 2)
      (A ++ P) ⟨[], []⟩).1.isSome with
  | true => rw [if_pos (rfl : true = true), if_pos (rfl : true = true)]
  | false =>
    rw [if_neg (by simp), if_neg (by simp)]
    have hnone : (checkLoop ((A ++ P) ++ pkg :: Q) (((A ++ P) ++ pkg :: Q).length + 2)
        (A ++ P) ⟨[], []⟩).1 = none :=
      Option.not_isSome_iff_eq_none.mp (by rw [hs]; simp)
    have hspec := checkLoop_spec ((A ++ P) ++ pkg :: Q) (A ++ P) ⟨[], []⟩ [] (pkg :: Q)
      (by simp) (by intro p hp0; simp at hp0) rfl
      (stinv_init _) (binv_init _)
    obtain ⟨hstk, -, -, -, hcov⟩ := hspec.2 hnone
    have hx : x ∈ (checkLoop ((A ++ P) ++ pkg :: Q) (((A ++ P) ++ pkg :: Q).length + 2)
        (A ++ P) ⟨[], []⟩).2.visited := by
      rcases hax with ⟨a, ha, han⟩
      have := hcov a (List.mem_append_left _ ha)
      rw [han] at this
      exact this
    have hstep : ∀ (rsX : List Repo) (pkgX : Repo), pkgX.name = x →
        checkLoop rsX (((A ++ P) ++ pkg :: Q).length + 2) (pkgX :: Q)
          (checkLoop ((A ++ P) ++ pkg :: Q) (((A ++ P) ++ pkg :: Q).length + 2)
            (A ++ P) ⟨[], []⟩).2
        = checkLoop rsX (((A ++ P) ++ pkg :: Q).length + 2) Q
          (checkLoop ((A ++ P) ++ pkg :: Q) (((A ++ P) ++ pkg :: Q).length + 2)
            (A ++ P) ⟨[], []⟩).2 := by
      intro rsX pkgX hpX
      simp only [checkLoop]
      have hv : visit rsX (((A ++ P) ++ pkg :: Q).length + 2) pkgX
          (checkLoop ((A ++ P) ++ pkg :: Q) (((A ++ P) ++ pkg :: Q).length + 2)
            (A ++ P) ⟨[], []⟩).2
          = (false, (checkLoop ((A ++ P) ++ pkg :: Q) (((A ++ P) ++ pkg :: Q).length + 2)
            (A ++ P) ⟨[], []⟩).2) := by
        rw [show ((A ++ P) ++ pkg :: Q).length + 2 = (((A ++ P) ++ pkg :: Q).length + 1) + 1
          from rfl]
        rw [visit_succ]
        rw [if_neg (by rw [hstk]; simp), if_pos (by rw [hpX]; exact hx)]
      rw [hv]
      rfl
    rw [hstep ((A ++ P) ++ pkg :: Q) pkg hp, hstep ((A ++ P) ++ pkg' :: Q) pkg' hp']
    exact checkLoop_congr _ _ hfind _ Q _

/-- C10: check_circular_deps keys its visited set by repo name alone, so
when an app and a package share a name, the package node is already
visited once the app has been traversed and its own declared dependency
edges are never followed: the check result and the reported name are
unchanged under arbitrary replacement of the shadowed package's
dependency declarations.  In particular the declared dependency cycle
running through the shadowed package X and package Y in cfgC10 goes
undetected, while the identical package declarations without the
shadowing app (cfgC10noApp) are reported as a cycle. -/
theorem shadowed_package_deps_never_followed :
    (∀ (A P Q : List Repo) (pkg pkg' : Repo) (x : String),
      (∃ a ∈ A, a.name = x) → pkg.name = x → pkg'.name = x →
      check_circular_deps ⟨A, P ++ pkg :: Q⟩ = check_circular_deps ⟨A, P ++ pkg' :: Q⟩
      ∧ check_report ⟨A, P ++ pkg :: Q⟩ = check_report ⟨A, P ++ pkg' :: Q⟩)
    ∧ check_circular_deps cfgC10 = false
    ∧ check_circular_deps cfgC10noApp = true := by
  refine ⟨?_, by decide, by decide⟩
  intro A P Q pkg pkg' x hax hp hp'
  have h := checkList_shadowed_congr A P Q pkg pkg' x hax hp hp'
  constructor
  · unfold check_circular_deps
    rw [h]
  · unfold check_report
    rw [h]

theorem shadowed_package_deps_never_followed_witness :
    check_circular_deps ⟨[⟨"X", ⟨[], []⟩⟩],
        [⟨"X", ⟨[], [⟨"Y", false⟩]⟩⟩, ⟨"Y", ⟨[], [⟨"X", false⟩]⟩⟩]⟩
      = check_circular_deps ⟨[⟨"X", ⟨[], []⟩⟩],
        [⟨"X", ⟨[], []⟩⟩, ⟨"Y", ⟨[], [⟨"X", false⟩]⟩⟩]⟩ :=
  (shadowed_package_deps_never_followed.1 [⟨"X", ⟨[], []⟩⟩] []
    [⟨"Y", ⟨[], [⟨"X", false⟩]⟩⟩] ⟨"X", ⟨[], [⟨"Y", false⟩]⟩⟩ ⟨"X", ⟨[], []⟩⟩ "X"
    ⟨⟨"X", ⟨[], []⟩⟩, by decide, rfl⟩ rfl rfl).1

/-! ## The cycle detector claim -/

/-- C1 (amended): check_circular_deps returns true exactly when the
dependency graph — edges resolved by name against the combined
apps-then-packages node set, dangling names ignored — contains a directed
cycle of length at least one; on an acyclic graph it returns false after
visiting every node exactly once (the visited list is duplicate free,
contains the name of every node, and contains only node names); and when
it returns true, the reported name is the outer-loop start node of the
traversal that found the cycle: a node from which the detected cycle is
reachable, though not necessarily a node lying on the cycle itself. -/
theorem check_circular_deps_correct (c : ReposWithDeps) :
    (check_circular_deps c = true ↔ HasCycle (allRepos c))
    ∧ (¬ HasCycle (allRepos c) →
        check_circular_deps c = false
        ∧ (check_visited c).Nodup
        ∧ (∀ r ∈ allRepos c, r.name ∈ check_visited c)
        ∧ (∀ n ∈ check_visited c, ∃ r ∈ allRepos c, r.name = n))
    ∧ (∀ n, check_report c = some n → ReachesCycle (allRepos c) n) := by
  have hspec := checkList_spec (allRepos c)
  refine ⟨check_true_iff c, ?_, ?_⟩
  · intro hnc
    have hfalse : check_circular_deps c = false := by
      cases h : check_circular_deps c
      · rfl
      · exact absurd ((check_true_iff c).mp h) hnc
    have hnone : (checkList (allRepos c)).1 = none := by
      unfold check_circular_deps at hfalse
      exact Option.not_isSome_iff_eq_none.mp (by rw [hfalse]; simp)
    obtain ⟨-, hSt, -, -, hcov⟩ := hspec.2 hnone
    exact ⟨hfalse, hSt.vNodup, hcov, hSt.vNames⟩
  · intro n hn
    exact hspec.1 n hn

theorem check_circular_deps_correct_witness :
    check_circular_deps cfgW = false
    ∧ "p" ∈ check_visited cfgW ∧ "x" ∈ check_visited cfgW := by
  have h := check_circular_deps_correct cfgW
  have hnc : ¬ HasCycle (allRepos cfgW) := by
    intro hc
    have ht := (h.1).mpr hc
    have hf : check_circular_deps cfgW = false := by decide
    rw [hf] at ht
    exact Bool.false_ne_true ht
  obtain ⟨hf, -, hcov, -⟩ := h.2.1 hnc
  exact ⟨hf, hcov ⟨"p", ⟨[], []⟩⟩ (by decide), hcov ⟨"x", ⟨[], [⟨"p", false⟩]⟩⟩ (by decide)⟩

/-- C1 counterexample: in cexC1 the resolved graph has the cycle
B -> C -> B, reachable from A; the detector reports the node A (the
outer-loop start of the traversal in which the cycle was found), yet A
lies on no directed cycle, since no edge targets A: the claim that the
reported node lies on the detected cycle is false. -/
theorem check_report_not_on_cycle_counterexample :
    check_report cexC1 = some "A"
    ∧ ¬ Relation.TransGen (Edge (allRepos cexC1)) "A" "A" := by
  constructor
  · decide
  · intro h
    rcases Relation.TransGen.tail'_iff.mp h with ⟨y, -, hyA⟩
    obtain ⟨r, hfr, hmem, -⟩ := hyA
    have hrin : r ∈ allRepos cexC1 := findRepo_mem hfr
    have hcases : r = ⟨"A", ⟨[], [⟨"B", false⟩]⟩⟩ ∨ r = ⟨"B", ⟨[], [⟨"C", false⟩]⟩⟩
        ∨ r = ⟨"C", ⟨[], [⟨"B", false⟩]⟩⟩ := by
      simpa [cexC1, allRepos] using hrin
    rcases hcases with rfl | rfl | rfl <;> simp [depNames] at hmem
